import Mathlib

/-!
Verification of git-whoknows (src/main.rs): the commit-index construction in
`TrackedFile::from_path` and the per-author aggregation in `main`.

The blame parser lives in a separate module (`mod blame`) that is not part of
the available sources; its output interface — a sequence of lines, each with a
header carrying a commit hash and, on first sighting, optional extra metadata
(author name and mail) — is embedded below as `Line`/`Header`/`Extra`.

The `HashMap<String, Commit>` of `from_path` is modelled as an association
list kept in first-insertion order, with `insert` replacing an existing key in
place (the `std::collections::HashMap` contract).  The `HashMap<Author,
Vec<Commit>>` of `main` is modelled the same way; where a claim depends on the
map's (unspecified, per-process-random) iteration order, the ordering step is
additionally stated over an arbitrary enumeration of the map's entries.
-/

/-- Extra commit metadata present only on the first sighting of a commit
(from `blame::Header`'s `extra` field as used by `from_path`). -/
structure Extra where
  author : String
  author_mail : String
deriving DecidableEq, Repr

/-- Header of one blame line: the commit hash plus optional extra metadata. -/
structure Header where
  hash : String
  extra : Option Extra
deriving DecidableEq, Repr

/-- One parsed blame line, as consumed by `from_path` (`line.header...`). -/
structure Line where
  header : Header
deriving DecidableEq, Repr

/-- `Commit` from src/main.rs lines 45-51. -/
structure Commit where
  hash : String
  author : String
  author_mail : String
  num_lines : Nat
deriving DecidableEq, Repr

/-- The commit table: `HashMap<String, Commit>` as an association list in
first-insertion order. -/
abbrev Table := List (String × Commit)

/-- `HashMap::get` / `get_mut` lookup. -/
def findC : Table → String → Option Commit
  | [], _ => none
  | (k', v) :: m, k => if k = k' then some v else findC m k

/-- `HashMap::insert`: replace the value in place if the key is present,
otherwise add a new entry. -/
def insertC : Table → String → Commit → Table
  | [], k, v => [(k, v)]
  | (k', v') :: m, k, v => if k = k' then (k, v) :: m else (k', v') :: insertC m k v

/-- `commit.num_lines += 1` through `get_mut`: increment the entry's count. -/
def bumpC : Table → String → Table
  | [], _ => []
  | (k', v') :: m, k =>
    if k = k' then (k', { v' with num_lines := v'.num_lines + 1 }) :: m
    else (k', v') :: bumpC m k

/-- The only failure of the indexing loop in the source: the `unreachable!()`
panic on src/main.rs line 83 (there is no error value for a missing commit). -/
inductive BuildError where
  | unreachableState
deriving DecidableEq, Repr

/-- The body of the `for_each` closure in `TrackedFile::from_path`
(src/main.rs lines 66-85): on `extra` insert a fresh `Commit` with
`num_lines = 0`, then increment the entry for the line's hash, panicking
(`unreachable!()`) when no entry exists. -/
def processLine (m : Table) (l : Line) : Except BuildError Table :=
  let m' :=
    match l.header.extra with
    | some extra =>
      insertC m l.header.hash
        { hash := l.header.hash
          author := extra.author
          author_mail := extra.author_mail
          num_lines := 0 }
    | none => m
  match findC m' l.header.hash with
  | some _ => Except.ok (bumpC m' l.header.hash)
  | none => Except.error BuildError.unreachableState

/-- The indexing loop of `TrackedFile::from_path` over the parsed lines
(src/main.rs lines 66-85): process lines in order, stopping at the first
panic. -/
def buildFrom (m : Table) : List Line → Except BuildError Table
  | [] => Except.ok m
  | l :: ls =>
    match processLine m l with
    | Except.ok m' => buildFrom m' ls
    | Except.error e => Except.error e

/-- The commit table of `TrackedFile::from_path`, built from an empty map
(src/main.rs line 65). -/
def buildCommits (lines : List Line) : Except BuildError Table :=
  buildFrom [] lines

/-- `commits.into_iter().map(|(_, v)| v).collect()` (src/main.rs line 87):
the `TrackedFile.commits` vector. -/
def tableCommits (m : Table) : List Commit :=
  m.map Prod.snd

/-- Number of records in a stream carrying a given commit identifier. -/
def countHash (lines : List Line) (k : String) : Nat :=
  (lines.filter (fun l => l.header.hash = k)).length

/-- The parser's first-sighting invariant on a record stream (spec of
`LineRecord`): given the set of hashes already seen, `extra` is present on a
record exactly when its hash has not been seen before. -/
def firstSighting : List Line → List String → Bool
  | [], _ => true
  | l :: ls, seen =>
    (l.header.extra.isSome == !seen.contains l.header.hash)
      && firstSighting ls (l.header.hash :: seen)

/-- A stream has an orphan record (relative to the hashes whose metadata was
already seen) when some record carries no extra metadata and its hash was
never seen with metadata up to that point. -/
def hasOrphan : List Line → List String → Bool
  | [], _ => false
  | l :: ls, meta =>
    match l.header.extra with
    | some _ => hasOrphan ls (l.header.hash :: meta)
    | none => if meta.contains l.header.hash then hasOrphan ls meta else true

/-- Sum of `num_lines` over a table's commits. -/
def tableSum (m : Table) : Nat :=
  (m.map (fun p => p.2.num_lines)).sum

/-- `Author` from src/main.rs lines 30-34: structural equality over name and
mail (the derived `PartialEq, Eq, Hash`). -/
structure Author where
  name : String
  mail : String
deriving DecidableEq, Repr

/-- `Author::new` (src/main.rs lines 36-43). -/
def Author.new (name mail : String) : Author :=
  { name := name, mail := mail }

/-- The `HashMap<Author, Vec<Commit>>` of `main`, as an association list in
first-insertion order. -/
abbrev Groups := List (Author × List Commit)

/-- `author_commits.entry(author).or_default().push(commit)`
(src/main.rs line 138). -/
def pushCommit : Groups → Author → Commit → Groups
  | [], a, c => [(a, [c])]
  | (a', cs) :: m, a, c =>
    if a = a' then (a', cs ++ [c]) :: m else (a', cs) :: pushCommit m a c

/-- The grouping loop of `main` (src/main.rs lines 135-139). -/
def groupByAuthor (commits : List Commit) : Groups :=
  commits.foldl (fun m c => pushCommit m (Author.new c.author c.author_mail) c) []

/-- One entry of the ranked vector: the map step of src/main.rs lines 140-146,
`(num_lines, author, commits)` with `num_lines` the sum over the group. -/
def summarize (e : Author × List Commit) : Nat × Author × List Commit :=
  ((e.2.map Commit.num_lines).sum, e.1, e.2)

/-- The comparator of `sort_by(|a, b| b.0.cmp(&a.0))` (src/main.rs line 147):
descending by the line total, comparing nothing else. -/
def descByLines (a b : Nat × Author × List Commit) : Bool :=
  decide (b.1 ≤ a.1)

/-- Summarize and stably sort an enumeration of the author map's entries
(src/main.rs lines 140-147).  The entry order is the map's iteration order,
which the Rust `HashMap` leaves unspecified; `rank` takes it as an argument. -/
def rank (entries : Groups) : List (Nat × Author × List Commit) :=
  (entries.map summarize).mergeSort descByLines

/-- The whole aggregation of `main` (src/main.rs lines 135-147) with the map
enumerated in first-insertion order. -/
def aggregate (commits : List Commit) : List (Nat × Author × List Commit) :=
  rank (groupByAuthor commits)

/-- Keys of the commit table. -/
def keysC (m : Table) : List String :=
  m.map Prod.fst

/-- Every table entry's commit records the hash it is indexed under. -/
def hashMatches (m : Table) : Prop :=
  ∀ p ∈ m, p.2.hash = p.1

/-- Lookup in the author map. -/
def groupFind : Groups → Author → Option (List Commit)
  | [], _ => none
  | (a', cs) :: g, a => if a = a' then some cs else groupFind g a

/-- All commits of the author map, groups concatenated. -/
def joinGroups (g : Groups) : List Commit :=
  (g.map Prod.snd).flatten

/-! ### Concrete record streams and commit sets used by the scenarios -/

/-- The spec's round-trip scenario: two records for `abc123` (Alice), one for
`def456` (Bob). -/
def roundTripStream : List Line :=
  [⟨⟨"abc123", some ⟨"Alice", "alice@x.com"⟩⟩⟩,
   ⟨⟨"abc123", none⟩⟩,
   ⟨⟨"def456", some ⟨"Bob", "bob@x.com"⟩⟩⟩]

/-- The commit table `from_path` builds for `roundTripStream`. -/
def roundTripTable : Table :=
  [("abc123", ⟨"abc123", "Alice", "alice@x.com", 2⟩),
   ("def456", ⟨"def456", "Bob", "bob@x.com", 1⟩)]

/-- A single record whose commit identifier never appears with metadata. -/
def orphanStream : List Line :=
  [⟨⟨"a", none⟩⟩]

/-- A stream carrying extra metadata twice for the same commit identifier. -/
def dupExtraStream : List Line :=
  [⟨⟨"a", some ⟨"N", "E"⟩⟩⟩, ⟨⟨"a", some ⟨"N", "E"⟩⟩⟩]

/-- A commit by author Zed with five lines. -/
def zedCommit : Commit :=
  ⟨"h1", "Zed", "z@x.com", 5⟩

/-- A commit by author Alice with five lines. -/
def aliceCommit : Commit :=
  ⟨"h2", "Alice", "a@x.com", 5⟩

/-- Two commits with tied line totals, Zed encountered first. -/
def tieCommits : List Commit :=
  [zedCommit, aliceCommit]

/-- The tied author map enumerated with Zed first. -/
def tieGroups : Groups :=
  [(Author.new "Zed" "z@x.com", [zedCommit]),
   (Author.new "Alice" "a@x.com", [aliceCommit])]

/-- The same author map enumerated with Alice first. -/
def tieGroupsRev : Groups :=
  [(Author.new "Alice" "a@x.com", [aliceCommit]),
   (Author.new "Zed" "z@x.com", [zedCommit])]

/-- Two commits with distinct hashes but the same author name and mail. -/
def sameAuthorCommits : List Commit :=
  [⟨"h1", "N", "E", 1⟩, ⟨"h2", "N", "E", 2⟩]

open List

/-! ### Association-list lemmas for the commit table -/

theorem findC_insertC (m : Table) (k k' : String) (v : Commit) :
    findC (insertC m k v) k' = if k' = k then some v else findC m k' := by
  induction m with
  | nil => simp [insertC, findC]
  | cons p m ih =>
    obtain ⟨k₀, v₀⟩ := p
    by_cases hk : k = k₀
    · subst hk
      by_cases hk' : k' = k
      · subst hk'; simp [insertC, findC]
      · simp [insertC, findC, hk']
    · by_cases hk' : k' = k₀
      · subst hk'
        have : k' ≠ k := fun h => hk (h ▸ rfl)
        simp [insertC, findC, hk, this]
      · simp [insertC, findC, hk, hk', ih]

theorem findC_bumpC (m : Table) (k k' : String) :
    findC (bumpC m k) k' =
      if k' = k then
        (findC m k).map (fun c => { c with num_lines := c.num_lines + 1 })
      else findC m k' := by
  induction m with
  | nil => simp [bumpC, findC]
  | cons p m ih =>
    obtain ⟨k₀, v₀⟩ := p
    by_cases hk : k = k₀
    · subst hk
      by_cases hk' : k' = k
      · subst hk'; simp [bumpC, findC]
      · simp [bumpC, findC, hk']
    · by_cases hk' : k' = k₀
      · subst hk'
        have : k' ≠ k := fun h => hk (h ▸ rfl)
        simp [bumpC, findC, hk, this]
      · simp [bumpC, findC, hk, hk', ih]

theorem tableSum_insertC_of_none (m : Table) (k : String) (v : Commit)
    (h : findC m k = none) :
    tableSum (insertC m k v) = tableSum m + v.num_lines := by
  induction m with
  | nil => simp [insertC, tableSum]
  | cons p m ih =>
    obtain ⟨k₀, v₀⟩ := p
    by_cases hk : k = k₀
    · subst hk; simp [findC] at h
    · simp only [findC, if_neg hk] at h
      have hsum := ih h
      simp only [insertC, if_neg hk, tableSum, List.map_cons, List.sum_cons] at *
      omega

theorem tableSum_bumpC_of_some (m : Table) (k : String) (c : Commit)
    (h : findC m k = some c) :
    tableSum (bumpC m k) = tableSum m + 1 := by
  induction m with
  | nil => simp [findC] at h
  | cons p m ih =>
    obtain ⟨k₀, v₀⟩ := p
    by_cases hk : k = k₀
    · subst hk; simp [bumpC, tableSum]; omega
    · simp only [findC, if_neg hk] at h
      have hsum := ih h
      simp only [bumpC, if_neg hk, tableSum, List.map_cons, List.sum_cons] at *
      omega

theorem keysC_bumpC (m : Table) (k : String) : keysC (bumpC m k) = keysC m := by
  induction m with
  | nil => rfl
  | cons p m ih =>
    obtain ⟨k₀, v₀⟩ := p
    by_cases hk : k = k₀
    · subst hk; simp [bumpC, keysC]
    · simp [bumpC, keysC, hk]
      simpa [keysC] using ih

theorem mem_keysC_insertC (m : Table) (k a : String) (v : Commit) :
    a ∈ keysC (insertC m k v) ↔ a ∈ keysC m ∨ a = k := by
  induction m with
  | nil => simp [insertC, keysC]
  | cons p m ih =>
    obtain ⟨k₀, v₀⟩ := p
    by_cases hk : k = k₀
    · subst hk
      constructor
      · intro h
        rcases (by simpa [insertC, keysC] using h) with h | h
        · exact Or.inr h
        · exact Or.inl (by simp [keysC, h])
      · intro h
        rcases h with h | h
        · rcases (by simpa [keysC] using h) with h | h
          · simp [insertC, keysC, h]
          · simp [insertC, keysC, h]
        · simp [insertC, keysC, h]
    · simp only [insertC, if_neg hk, keysC, List.map_cons, List.mem_cons]
      rw [show (insertC m k v).map Prod.fst = keysC (insertC m k v) from rfl] at *
      rw [show m.map Prod.fst = keysC m from rfl]
      constructor
      · intro h
        rcases h with h | h
        · exact Or.inl (Or.inl h)
        · rcases (ih.mp h) with h | h
          · exact Or.inl (Or.inr h)
          · exact Or.inr h
      · intro h
        rcases h with (h | h) | h
        · exact Or.inl h
        · exact Or.inr (ih.mpr (Or.inl h))
        · exact Or.inr (ih.mpr (Or.inr h))

theorem nodup_keysC_insertC (m : Table) (k : String) (v : Commit)
    (h : (keysC m).Nodup) : (keysC (insertC m k v)).Nodup := by
  induction m with
  | nil => simp [insertC, keysC]
  | cons p m ih =>
    obtain ⟨k₀, v₀⟩ := p
    simp only [keysC, List.map_cons, List.nodup_cons] at h
    by_cases hk : k = k₀
    · subst hk
      simpa [insertC, keysC, List.nodup_cons] using h
    · have h' := ih h.2
      simp only [insertC, if_neg hk, keysC, List.map_cons, List.nodup_cons]
      refine ⟨?_, h'⟩
      intro hmem
      rcases (mem_keysC_insertC m k k₀ v).mp (by simpa [keysC] using hmem) with hmem | hmem
      · exact h.1 (by simpa [keysC] using hmem)
      · exact hk (hmem ▸ rfl)

theorem mem_insertC (m : Table) (k : String) (v : Commit) (p : String × Commit)
    (h : p ∈ insertC m k v) : p ∈ m ∨ p = (k, v) := by
  induction m with
  | nil => simpa [insertC] using h
  | cons q m ih =>
    obtain ⟨k₀, v₀⟩ := q
    by_cases hk : k = k₀
    · subst hk
      rcases (by simpa [insertC] using h) with h | h
      · exact Or.inr (by simp [h])
      · exact Or.inl (List.mem_cons_of_mem _ h)
    · rcases (by simpa [insertC, hk] using h) with h | h
      · exact Or.inl (by simp [h])
      · rcases ih h with h | h
        · exact Or.inl (List.mem_cons_of_mem _ h)
        · exact Or.inr h

theorem mem_bumpC (m : Table) (k : String) (p : String × Commit)
    (h : p ∈ bumpC m k) :
    p ∈ m ∨ ∃ c, (p.1, c) ∈ m ∧ p.2 = { c with num_lines := c.num_lines + 1 } := by
  induction m with
  | nil => simp [bumpC] at h
  | cons q m ih =>
    obtain ⟨k₀, v₀⟩ := q
    by_cases hk : k = k₀
    · subst hk
      rcases (by simpa [bumpC] using h) with h | h
      · exact Or.inr ⟨v₀, by simp [h]⟩
      · exact Or.inl (List.mem_cons_of_mem _ h)
    · rcases (by simpa [bumpC, hk] using h) with h | h
      · exact Or.inl (by simp [h])
      · rcases ih h with h | h
        · exact Or.inl (List.mem_cons_of_mem _ h)
        · obtain ⟨c, hc, hp⟩ := h
          exact Or.inr ⟨c, List.mem_cons_of_mem _ hc, hp⟩

theorem findC_of_mem (m : Table) (p : String × Commit)
    (hnd : (keysC m).Nodup) (h : p ∈ m) : findC m p.1 = some p.2 := by
  induction m with
  | nil => simp at h
  | cons q m ih =>
    obtain ⟨k₀, v₀⟩ := q
    simp only [keysC, List.map_cons, List.nodup_cons] at hnd
    rcases List.mem_cons.mp h with h | h
    · subst h; simp [findC]
    · have hne : p.1 ≠ k₀ := by
        intro he
        exact hnd.1 (he ▸ List.mem_map_of_mem Prod.fst h)
      simp only [findC, if_neg hne]
      exact ih hnd.2 h

/-- A single step of the indexing loop preserves distinctness of the table's
keys and the key-hash agreement, whatever the outcome. -/
theorem processLine_invariant (m m' : Table) (l : Line)
    (hnd : (keysC m).Nodup) (hh : hashMatches m)
    (h : processLine m l = Except.ok m') :
    (keysC m').Nodup ∧ hashMatches m' := by
  classical
  set h0 := l.header.hash with hh0
  have step :
      ∀ m₁ : Table, (keysC m₁).Nodup → hashMatches m₁ →
        (keysC (bumpC m₁ h0)).Nodup ∧ hashMatches (bumpC m₁ h0) := by
    intro m₁ hnd₁ hh₁
    refine ⟨by simpa [keysC_bumpC] using hnd₁, ?_⟩
    intro p hp
    rcases mem_bumpC m₁ h0 p hp with hp | ⟨c, hc, hp2⟩
    · exact hh₁ p hp
    · have := hh₁ (p.1, c) hc
      simp only at this
      simp [hp2, this]
  cases hext : l.header.extra with
  | some e =>
    simp only [processLine, hext, ← hh0] at h
    set v : Commit :=
      { hash := h0, author := e.author, author_mail := e.author_mail, num_lines := 0 } with hv
    have hfind : findC (insertC m h0 v) h0 = some v := by
      simp [findC_insertC]
    rw [hfind] at h
    have hnd₁ : (keysC (insertC m h0 v)).Nodup := nodup_keysC_insertC m h0 v hnd
    have hh₁ : hashMatches (insertC m h0 v) := by
      intro p hp
      rcases mem_insertC m h0 v p hp with hp | hp
      · exact hh p hp
      · simp [hp, hv]
    obtain ⟨h1, h2⟩ := step (insertC m h0 v) hnd₁ hh₁
    cases h
    exact ⟨h1, h2⟩
  | none =>
    simp only [processLine, hext, ← hh0] at h
    cases hf : findC m h0 with
    | none => rw [hf] at h; cases h
    | some c =>
      rw [hf] at h
      obtain ⟨h1, h2⟩ := step m hnd hh
      cases h
      exact ⟨h1, h2⟩

/-- Whenever the stream contains a record whose hash was never accompanied by
metadata, the indexing loop hits the `unreachable!()` panic. -/
theorem buildFrom_orphan : ∀ (ls : List Line) (meta : List String) (m : Table),
    (∀ k, (findC m k).isSome = meta.contains k) →
    hasOrphan ls meta = true →
    buildFrom m ls = Except.error BuildError.unreachableState := by
  intro ls
  induction ls with
  | nil => intro meta m _ h; simp [hasOrphan] at h
  | cons l ls ih =>
    intro meta m hfind h
    cases hext : l.header.extra with
    | some e =>
      simp only [hasOrphan, hext] at h
      set h0 := l.header.hash with hh0
      set v : Commit :=
        { hash := h0, author := e.author, author_mail := e.author_mail, num_lines := 0 } with hv
      have hstep : processLine m l = Except.ok (bumpC (insertC m h0 v) h0) := by
        simp [processLine, hext, findC_insertC, ← hh0, ← hv]
      have hfind' : ∀ k, (findC (bumpC (insertC m h0 v) h0) k).isSome
          = (h0 :: meta).contains k := by
        intro k
        by_cases hk : k = h0
        · subst hk
          simp [findC_bumpC, findC_insertC, List.contains_cons]
        · rw [findC_bumpC, if_neg hk, findC_insertC, if_neg hk,
            List.contains_cons, beq_eq_false_iff_ne.mpr hk]
          simp [hfind k]
      rw [buildFrom, hstep]
      exact ih (h0 :: meta) _ hfind' h
    | none =>
      simp only [hasOrphan, hext] at h
      set h0 := l.header.hash with hh0
      cases hc : meta.contains h0 with
      | true =>
        rw [hc] at h
        simp only [if_true] at h
        have : (findC m h0).isSome = true := by rw [hfind h0, hc]
        obtain ⟨c, hcm⟩ := Option.isSome_iff_exists.mp this
        have hstep : processLine m l = Except.ok (bumpC m h0) := by
          simp [processLine, hext, ← hh0, hcm]
        have hfind' : ∀ k, (findC (bumpC m h0) k).isSome = meta.contains k := by
          intro k
          by_cases hk : k = h0
          · subst hk
            rw [findC_bumpC, if_pos rfl, hcm, hc]
            rfl
          · rw [findC_bumpC, if_neg hk]
            exact hfind k
        rw [buildFrom, hstep]
        exact ih meta _ hfind' h
      | false =>
        have : (findC m h0).isSome = false := by rw [hfind h0, hc]
        have hnone : findC m h0 = none := Option.not_isSome_iff_eq_none.mp (by simp [this])
        have hstep : processLine m l = Except.error BuildError.unreachableState := by
          simp [processLine, hext, ← hh0, hnone]
        rw [buildFrom, hstep]

/-- On a stream satisfying the first-sighting invariant the indexing loop
succeeds; the final table has an entry exactly for the hashes seen so far or
occurring in the stream, each entry's count grows by the number of records
carrying its hash, and the total count grows by the stream length. -/
theorem buildFrom_firstSighting : ∀ (ls : List Line) (seen : List String) (m : Table),
    firstSighting ls seen = true →
    (∀ k, (findC m k).isSome = seen.contains k) →
    ∃ m', buildFrom m ls = Except.ok m' ∧
      (∀ k, (findC m' k).isSome
        = (seen.contains k || (ls.map (fun l => l.header.hash)).contains k)) ∧
      (∀ k c', findC m' k = some c' →
        c'.num_lines = ((findC m k).map Commit.num_lines).getD 0 + countHash ls k) ∧
      tableSum m' = tableSum m + ls.length := by
  intro ls
  induction ls with
  | nil =>
    intro seen m _ hfind
    refine ⟨m, rfl, ?_, ?_, by simp⟩
    · intro k; simp [hfind k]
    · intro k c' hk
      simp [countHash, hk]
  | cons l ls ih =>
    intro seen m hwf hfind
    set h0 := l.header.hash with hh0
    rw [firstSighting, Bool.and_eq_true, beq_iff_eq] at hwf
    obtain ⟨hsight, hwf'⟩ := hwf
    cases hext : l.header.extra with
    | some e =>
      rw [hext] at hsight
      have hseen : seen.contains h0 = false := by
        simp only [Option.isSome_some] at hsight
        cases hc : seen.contains h0 with
        | false => rfl
        | true => rw [hc] at hsight; simp at hsight
      have hnone : findC m h0 = none :=
        Option.not_isSome_iff_eq_none.mp (by rw [hfind h0, hseen]; simp)
      set v : Commit :=
        { hash := h0, author := e.author, author_mail := e.author_mail, num_lines := 0 } with hv
      set m1 := bumpC (insertC m h0 v) h0 with hm1
      have hstep : processLine m l = Except.ok m1 := by
        simp [processLine, hext, findC_insertC, ← hh0, ← hv, hm1]
      have hm1find : ∀ k, findC m1 k
          = if k = h0 then some { v with num_lines := 1 } else findC m k := by
        intro k
        by_cases hk : k = h0
        · subst hk
          rw [hm1, findC_bumpC, if_pos rfl, findC_insertC, if_pos rfl, if_pos rfl, hv]
          rfl
        · rw [hm1, findC_bumpC, if_neg hk, findC_insertC, if_neg hk, if_neg hk]
      have hfind1 : ∀ k, (findC m1 k).isSome = (h0 :: seen).contains k := by
        intro k
        by_cases hk : k = h0
        · subst hk; simp [hm1find, List.contains_cons]
        · rw [hm1find, if_neg hk, List.contains_cons, beq_eq_false_iff_ne.mpr hk]
          simp [hfind k]
      obtain ⟨m', hbuild, hsome, hcount, hsum⟩ := ih (h0 :: seen) m1 hwf' hfind1
      refine ⟨m', by rw [buildFrom, hstep]; exact hbuild, ?_, ?_, ?_⟩
      · intro k
        rw [hsome k, List.map_cons, List.contains_cons, List.contains_cons]
        cases hk : (k == h0) <;> simp [← hh0, hk]
      · intro k c' hk
        have := hcount k c' hk
        by_cases hkh : k = h0
        · rw [hm1find, if_pos hkh] at this
          rw [hkh] at this ⊢
          rw [hnone]
          have hcnt : countHash (l :: ls) h0 = countHash ls h0 + 1 := by
            simp [countHash, List.filter_cons, ← hh0]
          rw [hcnt]
          simp only [Option.map_some', Option.getD_some, Option.map_none',
            Option.getD_none] at this ⊢
          omega
        · rw [hm1find, if_neg hkh] at this
          have hcnt : countHash (l :: ls) k = countHash ls k := by
            have : ¬ (l.header.hash = k) := fun he => hkh (by rw [← he, hh0])
            simp [countHash, List.filter_cons, this]
          rw [hcnt]
          exact this
      · have hs1 : tableSum m1 = tableSum m + 1 := by
          rw [hm1, tableSum_bumpC_of_some _ _ v (by rw [findC_insertC, if_pos rfl]),
            tableSum_insertC_of_none m h0 v hnone]
          simp [hv]
        rw [hsum, hs1, List.length_cons]
        omega
    | none =>
      rw [hext] at hsight
      have hseen : seen.contains h0 = true := by
        simp only [Option.isSome_none] at hsight
        cases hc : seen.contains h0 with
        | true => rfl
        | false => rw [hc] at hsight; simp at hsight
      have hsome0 : (findC m h0).isSome = true := by rw [hfind h0, hseen]
      obtain ⟨c, hcm⟩ := Option.isSome_iff_exists.mp hsome0
      set m1 := bumpC m h0 with hm1
      have hstep : processLine m l = Except.ok m1 := by
        simp [processLine, hext, ← hh0, hcm, hm1]
      have hm1find : ∀ k, findC m1 k
          = if k = h0 then some { c with num_lines := c.num_lines + 1 } else findC m k := by
        intro k
        by_cases hk : k = h0
        · subst hk
          rw [hm1, findC_bumpC, if_pos rfl, hcm, if_pos rfl]
          rfl
        · rw [hm1, findC_bumpC, if_neg hk, if_neg hk]
      have hfind1 : ∀ k, (findC m1 k).isSome = (h0 :: seen).contains k := by
        intro k
        by_cases hk : k = h0
        · subst hk; simp [hm1find, List.contains_cons]
        · rw [hm1find, if_neg hk, List.contains_cons, beq_eq_false_iff_ne.mpr hk]
          simp [hfind k]
      obtain ⟨m', hbuild, hsome, hcount, hsum⟩ := ih (h0 :: seen) m1 hwf' hfind1
      refine ⟨m', by rw [buildFrom, hstep]; exact hbuild, ?_, ?_, ?_⟩
      · intro k
        rw [hsome k, List.map_cons, List.contains_cons, List.contains_cons]
        cases hk : (k == h0) with
        | true =>
          have hk' : k = h0 := beq_iff_eq.mp hk
          simp [← hh0, hk, hk', hseen]
        | false => simp [← hh0, hk]
      · intro k c' hk
        have := hcount k c' hk
        by_cases hkh : k = h0
        · rw [hm1find, if_pos hkh] at this
          rw [hkh] at this ⊢
          rw [hcm]
          have hcnt : countHash (l :: ls) h0 = countHash ls h0 + 1 := by
            simp [countHash, List.filter_cons, ← hh0]
          rw [hcnt]
          simp only [Option.map_some', Option.getD_some] at this ⊢
          omega
        · rw [hm1find, if_neg hkh] at this
          have hcnt : countHash (l :: ls) k = countHash ls k := by
            have : ¬ (l.header.hash = k) := fun he => hkh (by rw [← he, hh0])
            simp [countHash, List.filter_cons, this]
          rw [hcnt]
          exact this
      · have hs1 : tableSum m1 = tableSum m + 1 := by
          rw [hm1, tableSum_bumpC_of_some _ _ c hcm]
        rw [hsum, hs1, List.length_cons]
        omega

/-! ### Lemmas about the author grouping -/

theorem groupFind_pushCommit (g : Groups) (a a' : Author) (c : Commit) :
    groupFind (pushCommit g a c) a'
      = if a' = a then some ((groupFind g a).getD [] ++ [c]) else groupFind g a' := by
  induction g with
  | nil =>
    by_cases h : a' = a
    · subst h; simp [pushCommit, groupFind]
    · simp [pushCommit, groupFind, h]
  | cons e g ih =>
    obtain ⟨a₀, cs₀⟩ := e
    by_cases h0 : a = a₀
    · subst h0
      by_cases h : a' = a
      · subst h; simp [pushCommit, groupFind]
      · simp [pushCommit, groupFind, h]
    · by_cases h : a' = a₀
      · subst h
        have hne : a' ≠ a := fun he => h0 (he ▸ rfl)
        simp [pushCommit, groupFind, h0, hne]
      · simp [pushCommit, groupFind, h0, h, ih]

theorem joinGroups_pushCommit (g : Groups) (a : Author) (c : Commit) :
    joinGroups (pushCommit g a c) ~ c :: joinGroups g := by
  induction g with
  | nil => simp [pushCommit, joinGroups]
  | cons e g ih =>
    obtain ⟨a₀, cs₀⟩ := e
    by_cases h0 : a = a₀
    · subst h0
      simp only [pushCommit, if_pos rfl, joinGroups, List.map_cons, List.flatten_cons]
      calc (cs₀ ++ [c]) ++ (g.map Prod.snd).flatten
          ~ (c :: cs₀) ++ (g.map Prod.snd).flatten :=
            (List.perm_append_singleton c cs₀).append_right _
        _ = c :: (cs₀ ++ (g.map Prod.snd).flatten) := rfl
    · simp only [pushCommit, if_neg h0, joinGroups, List.map_cons, List.flatten_cons]
      calc cs₀ ++ joinGroups (pushCommit g a c)
          ~ cs₀ ++ (c :: joinGroups g) := (ih).append_left cs₀
        _ ~ c :: (cs₀ ++ joinGroups g) := List.perm_middle

theorem joinGroups_foldl (cs : List Commit) : ∀ g : Groups,
    joinGroups
        (cs.foldl (fun m c => pushCommit m (Author.new c.author c.author_mail) c) g)
      ~ joinGroups g ++ cs := by
  induction cs with
  | nil => intro g; simp
  | cons c cs ih =>
    intro g
    calc joinGroups
          ((c :: cs).foldl (fun m c => pushCommit m (Author.new c.author c.author_mail) c) g)
        ~ joinGroups (pushCommit g (Author.new c.author c.author_mail) c) ++ cs := by
          simpa using ih (pushCommit g (Author.new c.author c.author_mail) c)
      _ ~ (c :: joinGroups g) ++ cs :=
          (joinGroups_pushCommit g _ c).append_right cs
      _ ~ joinGroups g ++ (c :: cs) := List.perm_middle.symm

/-- The author map partitions the input commits: concatenating all groups
gives back the input, up to order. -/
theorem groupByAuthor_flatten (cs : List Commit) :
    joinGroups (groupByAuthor cs) ~ cs := by
  simpa [joinGroups, groupByAuthor] using joinGroups_foldl cs []

/-- Summing the per-group totals equals summing line counts over all grouped
commits. -/
theorem totals_eq_joinGroups_sum (g : Groups) :
    ((g.map summarize).map (fun s => s.1)).sum
      = ((joinGroups g).map Commit.num_lines).sum := by
  induction g with
  | nil => simp [joinGroups]
  | cons e g ih =>
    obtain ⟨a, cs⟩ := e
    simp only [joinGroups, List.map_cons, List.flatten_cons, List.sum_cons,
      List.map_append, List.sum_append, summarize] at *
    omega

/-- A commit always ends up in the group of its own author key. -/
theorem groupFind_foldl_mem (cs : List Commit) : ∀ (g : Groups) (c : Commit),
    (c ∈ cs ∨ ∃ l, groupFind g (Author.new c.author c.author_mail) = some l ∧ c ∈ l) →
    ∃ l, groupFind
        (cs.foldl (fun m c => pushCommit m (Author.new c.author c.author_mail) c) g)
        (Author.new c.author c.author_mail) = some l ∧ c ∈ l := by
  induction cs with
  | nil =>
    intro g c h
    rcases h with h | h
    · simp at h
    · simpa using h
  | cons c₀ cs ih =>
    intro g c h
    set a₀ := Author.new c₀.author c₀.author_mail with ha₀
    set a := Author.new c.author c.author_mail with ha
    simp only [List.foldl_cons]
    apply ih (pushCommit g a₀ c₀) c
    rcases h with h | h
    · rcases List.mem_cons.mp h with h | h
      · subst h
        right
        refine ⟨(groupFind g a).getD [] ++ [c], ?_, by simp⟩
        rw [groupFind_pushCommit, if_pos rfl]
      · exact Or.inl h
    · obtain ⟨l, hl, hcl⟩ := h
      right
      by_cases hk : a = a₀
      · refine ⟨(groupFind g a₀).getD [] ++ [c₀], ?_, ?_⟩
        · rw [groupFind_pushCommit, if_pos hk]
        · rw [← hk, hl]
          simp [hcl]
      · refine ⟨l, ?_, hcl⟩
        rw [groupFind_pushCommit, if_neg hk]
        exact hl

/-- A successful author-map lookup returns an actual entry of the map. -/
theorem groupFind_mem (g : Groups) (a : Author) (l : List Commit)
    (h : groupFind g a = some l) : (a, l) ∈ g := by
  induction g with
  | nil => simp [groupFind] at h
  | cons e g ih =>
    obtain ⟨a₀, cs₀⟩ := e
    by_cases hk : a = a₀
    · subst hk
      rw [groupFind, if_pos rfl] at h
      cases h
      exact List.mem_cons_self _ _
    · rw [groupFind, if_neg hk] at h
      exact List.mem_cons_of_mem _ (ih h)

/-- Each commit of the input is a member of its author's group. -/
theorem mem_groupByAuthor (cs : List Commit) (c : Commit) (h : c ∈ cs) :
    ∃ l, groupFind (groupByAuthor cs) (Author.new c.author c.author_mail) = some l
      ∧ c ∈ l :=
  groupFind_foldl_mem cs [] c (Or.inl h)

/-- The ranked output is a permutation of the summarized entries: `sort_by`
only reorders the vector. -/
theorem rank_perm (g : Groups) : rank g ~ g.map summarize :=
  List.mergeSort_perm (g.map summarize) descByLines

/-- Runs that enumerate the same author map in different orders produce
outputs that are permutations of each other. -/
theorem rank_perm_of_perm (g₁ g₂ : Groups) (h : g₁ ~ g₂) : rank g₁ ~ rank g₂ :=
  ((rank_perm g₁).trans (h.map summarize)).trans (rank_perm g₂).symm

/-- The ranked output is sorted by weakly decreasing line totals. -/
theorem rank_sorted (g : Groups) :
    (rank g).Pairwise (fun a b => b.1 ≤ a.1) := by
  have h := @List.sorted_mergeSort (Nat × Author × List Commit) descByLines
    (fun a b c hab hbc => by
      simp only [descByLines, decide_eq_true_eq] at *
      omega)
    (fun a b => by
      simp only [descByLines, Bool.or_eq_true, decide_eq_true_eq]
      omega)
    (g.map summarize)
  exact h.imp (fun hab => by
    simpa [descByLines, decide_eq_true_eq] using hab)

/-- The whole indexing loop preserves distinct keys and key-hash agreement. -/
theorem buildFrom_invariant : ∀ (ls : List Line) (m m' : Table),
    (keysC m).Nodup → hashMatches m → buildFrom m ls = Except.ok m' →
    (keysC m').Nodup ∧ hashMatches m' := by
  intro ls
  induction ls with
  | nil =>
    intro m m' h1 h2 hb
    cases hb
    exact ⟨h1, h2⟩
  | cons l ls ih =>
    intro m m' h1 h2 hb
    cases hp : processLine m l with
    | ok m1 =>
      rw [buildFrom, hp] at hb
      obtain ⟨h1', h2'⟩ := processLine_invariant m m1 l h1 h2 hp
      exact ih m1 m' h1' h2' hb
    | error e =>
      rw [buildFrom, hp] at hb
      cases hb

/-- A hash occurring in the stream is carried by at least one record. -/
theorem countHash_pos (lines : List Line) (k : String)
    (h : ∃ l ∈ lines, l.header.hash = k) : 1 ≤ countHash lines k := by
  obtain ⟨l, hl, hk⟩ := h
  have hmem : l ∈ lines.filter (fun l => l.header.hash = k) :=
    List.mem_filter.mpr ⟨hl, by simp [hk]⟩
  have := List.length_pos.mpr (List.ne_nil_of_mem hmem)
  simpa [countHash] using this

/-! ### Claims -/

/-- C1 counterexample: on a stream whose only record carries no metadata, the
indexing loop of `TrackedFile::from_path` hits the `unreachable!()` panic — it
does not return a `MissingMetadata` error value (no such error exists in the
code). -/
theorem C1_counterexample :
    buildCommits orphanStream = Except.error BuildError.unreachableState := by
  rfl

/-- C1 (amended): whenever a commit identifier appears on a record without
extra metadata and was never previously seen with metadata, building the
commit table fails by panicking (`unreachable!()`), and no `TrackedFile` is
produced; the failure is a panic, not a `MissingMetadata` error. -/
theorem C1_amended (lines : List Line) (h : hasOrphan lines [] = true) :
    buildCommits lines = Except.error BuildError.unreachableState :=
  buildFrom_orphan lines [] [] (fun k => by simp [findC]) h

/-- C1 witness: the amended theorem applied to the concrete orphan stream. -/
theorem C1_amended_witness :
    hasOrphan orphanStream [] = true ∧
    buildCommits orphanStream = Except.error BuildError.unreachableState :=
  ⟨by decide, C1_amended orphanStream (by decide)⟩

/-- C2 counterexample: a stream carrying extra metadata twice for commit `a`
is accepted — the build succeeds (there is no `DuplicateMetadata` error), and
the resulting count reflects only the records from the second sighting on. -/
theorem C2_counterexample :
    buildCommits dupExtraStream = Except.ok [("a", ⟨"a", "N", "E", 1⟩)] := by
  rfl

/-- C2 (amended): the index assumes rather than verifies the first-sighting
invariant: a record carrying extra metadata for an identifier that is already
in the table is accepted without error — `HashMap::insert` overwrites the
existing `Commit`, discarding its accumulated count, and after the record the
identifier's entry has `num_lines = 1`. -/
theorem C2_amended (m : Table) (l : Line) (e : Extra)
    (hext : l.header.extra = some e)
    (_hdup : (findC m l.header.hash).isSome = true) :
    ∃ m₂, processLine m l = Except.ok m₂ ∧
      findC m₂ l.header.hash
        = some { hash := l.header.hash, author := e.author,
                 author_mail := e.author_mail, num_lines := 1 } := by
  refine ⟨bumpC (insertC m l.header.hash
      { hash := l.header.hash, author := e.author,
        author_mail := e.author_mail, num_lines := 0 }) l.header.hash, ?_, ?_⟩
  · simp [processLine, hext, findC_insertC]
  · rw [findC_bumpC, if_pos rfl, findC_insertC, if_pos rfl]
    rfl

/-- C2 witness: the amended theorem applied to a table already holding commit
`a` with seven lines and a record re-announcing `a`'s metadata. -/
theorem C2_amended_witness :
    (findC [("a", ⟨"a", "Old", "O", 7⟩)] "a").isSome = true ∧
    ∃ m₂, processLine [("a", ⟨"a", "Old", "O", 7⟩)]
        ⟨⟨"a", some ⟨"N", "E"⟩⟩⟩ = Except.ok m₂ ∧
      findC m₂ "a" = some ⟨"a", "N", "E", 1⟩ :=
  ⟨by decide, C2_amended _ _ ⟨"N", "E"⟩ rfl (by decide)⟩

/-- C3 counterexample: the index accepts the duplicate-metadata stream (the
build succeeds), yet the stored count for commit `a` is 1 while two records
carry that identifier — `lineCount` does not equal the record count on every
accepted stream. -/
theorem C3_counterexample :
    buildCommits dupExtraStream = Except.ok [("a", ⟨"a", "N", "E", 1⟩)] ∧
    countHash dupExtraStream "a" = 2 ∧
    ¬ ((⟨"a", "N", "E", 1⟩ : Commit).num_lines = countHash dupExtraStream "a") := by
  refine ⟨by rfl, by decide, by decide⟩

/-- C3 (amended): on every record stream satisfying the parser's
first-sighting invariant, the build succeeds and every commit in the
resulting table has `num_lines` equal to the number of records carrying its
identifier, which is at least 1. -/
theorem C3_amended (lines : List Line) (h : firstSighting lines [] = true) :
    ∃ m', buildCommits lines = Except.ok m' ∧
      ∀ c ∈ tableCommits m',
        c.num_lines = countHash lines c.hash ∧ 1 ≤ c.num_lines := by
  obtain ⟨m', hbuild, hsome, hcount, _⟩ :=
    buildFrom_firstSighting lines [] [] h (fun k => by simp [findC])
  obtain ⟨hnd, hhm⟩ := buildFrom_invariant lines [] m' (by simp [keysC])
    (fun p hp => absurd hp (List.not_mem_nil p)) hbuild
  refine ⟨m', hbuild, ?_⟩
  intro c hc
  obtain ⟨p, hpmem, hpc⟩ := List.mem_map.mp hc
  have hhash : p.2.hash = p.1 := hhm p hpmem
  have hfind : findC m' p.1 = some p.2 := findC_of_mem m' p hnd hpmem
  have hcnt : p.2.num_lines = countHash lines p.1 := by
    have := hcount p.1 p.2 hfind
    simpa [findC] using this
  have hpos : 1 ≤ countHash lines p.1 := by
    have hs := hsome p.1
    rw [hfind] at hs
    simp only [Option.isSome_some, List.contains_nil, Bool.false_or] at hs
    have hmem : p.1 ∈ lines.map (fun l => l.header.hash) := by
      have := hs.symm
      simpa [List.contains, List.elem_iff] using this
    obtain ⟨l, hl, hlk⟩ := List.mem_map.mp hmem
    exact countHash_pos lines p.1 ⟨l, hl, hlk⟩
  subst hpc
  rw [hhash]
  exact ⟨hcnt, by omega⟩

/-- C3 witness: the amended theorem applied to the round-trip stream. -/
theorem C3_amended_witness :
    firstSighting roundTripStream [] = true ∧
    ∃ m', buildCommits roundTripStream = Except.ok m' ∧
      ∀ c ∈ tableCommits m',
        c.num_lines = countHash roundTripStream c.hash ∧ 1 ≤ c.num_lines :=
  ⟨by decide, C3_amended roundTripStream (by decide)⟩

/-- C4: on every record stream satisfying the parser's first-sighting
invariant (the valid inputs), the build succeeds and the line counts of the
produced commits sum to the number of records in the stream. -/
theorem C4_total_lines (lines : List Line) (h : firstSighting lines [] = true) :
    ∃ m', buildCommits lines = Except.ok m' ∧
      ((tableCommits m').map Commit.num_lines).sum = lines.length := by
  obtain ⟨m', hbuild, _, _, hsum⟩ :=
    buildFrom_firstSighting lines [] [] h (fun k => by simp [findC])
  refine ⟨m', hbuild, ?_⟩
  have heq : ((tableCommits m').map Commit.num_lines).sum = tableSum m' := by
    rw [tableCommits, tableSum, List.map_map]
    rfl
  rw [heq, hsum]
  simp [tableSum]

/-- C4 witness: the theorem applied to the round-trip stream (three records). -/
theorem C4_witness :
    firstSighting roundTripStream [] = true ∧
    ∃ m', buildCommits roundTripStream = Except.ok m' ∧
      ((tableCommits m').map Commit.num_lines).sum = roundTripStream.length :=
  ⟨by decide, C4_total_lines roundTripStream (by decide)⟩

/-- C5: the aggregation drops nothing: the commits of all author groups of
the ranked output are a permutation of the input commit set, and the output
line totals sum to the sum of the input line counts. -/
theorem C5_conservation (commits : List Commit) :
    ((aggregate commits).map (fun s => s.2.2)).flatten ~ commits ∧
    ((aggregate commits).map (fun s => s.1)).sum
      = (commits.map Commit.num_lines).sum := by
  constructor
  · have h1 : (aggregate commits).map (fun s => s.2.2)
        ~ ((groupByAuthor commits).map summarize).map (fun s => s.2.2) :=
      (rank_perm (groupByAuthor commits)).map _
    have h2 : ((groupByAuthor commits).map summarize).map (fun s => s.2.2)
        = (groupByAuthor commits).map Prod.snd := by
      rw [List.map_map]
      rfl
    calc ((aggregate commits).map (fun s => s.2.2)).flatten
        ~ (((groupByAuthor commits).map summarize).map (fun s => s.2.2)).flatten :=
          h1.flatten
      _ = joinGroups (groupByAuthor commits) := by rw [h2]; rfl
      _ ~ commits := groupByAuthor_flatten commits
  · have h1 : (aggregate commits).map (fun s => s.1)
        ~ ((groupByAuthor commits).map summarize).map (fun s => s.1) :=
      (rank_perm (groupByAuthor commits)).map _
    rw [h1.sum_eq, totals_eq_joinGroups_sum]
    exact ((groupByAuthor_flatten commits).map Commit.num_lines).sum_eq

/-- C6 counterexample: two authors tied at five lines are emitted in the
order the author map enumerates them, not by an author-name key: feeding the
same two commits in the two possible orders yields the two opposite output
orders, so no deterministic (name, email) key governs the tie. -/
theorem C6_counterexample :
    aggregate tieCommits
      = [(5, Author.new "Zed" "z@x.com", [zedCommit]),
         (5, Author.new "Alice" "a@x.com", [aliceCommit])] ∧
    aggregate [aliceCommit, zedCommit]
      = [(5, Author.new "Alice" "a@x.com", [aliceCommit]),
         (5, Author.new "Zed" "z@x.com", [zedCommit])] := by
  constructor
  · rw [aggregate, rank, show (groupByAuthor tieCommits).map summarize
        = [(5, Author.new "Zed" "z@x.com", [zedCommit]),
           (5, Author.new "Alice" "a@x.com", [aliceCommit])] from by decide]
    exact mergeSort_of_sorted (by simp [pairwise_cons, descByLines])
  · rw [aggregate, rank, show (groupByAuthor [aliceCommit, zedCommit]).map summarize
        = [(5, Author.new "Alice" "a@x.com", [aliceCommit]),
           (5, Author.new "Zed" "z@x.com", [zedCommit])] from by decide]
    exact mergeSort_of_sorted (by simp [pairwise_cons, descByLines])

/-- C6 (amended): the aggregated author list is sorted in weakly descending
order of line totals; the comparator inspects only the totals, so tied
authors stay in the author map's enumeration order rather than any secondary
key order. -/
theorem C6_amended (commits : List Commit) :
    (aggregate commits).Pairwise (fun a b => b.1 ≤ a.1) :=
  rank_sorted (groupByAuthor commits)

/-- C7 counterexample: the same author map enumerated in two orders — both
reachable, since the `HashMap` iteration order is unspecified and varies per
process — produces differently ordered outputs for tied authors, so two runs
on the same input need not agree. -/
theorem C7_counterexample :
    tieGroups ~ tieGroupsRev ∧ rank tieGroups ≠ rank tieGroupsRev := by
  refine ⟨by decide, ?_⟩
  have e1 : rank tieGroups
      = [(5, Author.new "Zed" "z@x.com", [zedCommit]),
         (5, Author.new "Alice" "a@x.com", [aliceCommit])] := by
    rw [rank, show tieGroups.map summarize
        = [(5, Author.new "Zed" "z@x.com", [zedCommit]),
           (5, Author.new "Alice" "a@x.com", [aliceCommit])] from by decide]
    exact mergeSort_of_sorted (by simp [pairwise_cons, descByLines])
  have e2 : rank tieGroupsRev
      = [(5, Author.new "Alice" "a@x.com", [aliceCommit]),
         (5, Author.new "Zed" "z@x.com", [zedCommit])] := by
    rw [rank, show tieGroupsRev.map summarize
        = [(5, Author.new "Alice" "a@x.com", [aliceCommit]),
           (5, Author.new "Zed" "z@x.com", [zedCommit])] from by decide]
    exact mergeSort_of_sorted (by simp [pairwise_cons, descByLines])
  rw [e1, e2]
  decide

/-- C7 (amended): two runs of the aggregation on the same commit set agree up
to the order of tied authors: whatever orders the author map is enumerated
in, the outputs are permutations of each other and each is sorted by weakly
descending line totals; identical ordering is not guaranteed. -/
theorem C7_amended (g₁ g₂ : Groups) (h : g₁ ~ g₂) :
    rank g₁ ~ rank g₂ ∧
    (rank g₁).Pairwise (fun a b => b.1 ≤ a.1) ∧
    (rank g₂).Pairwise (fun a b => b.1 ≤ a.1) :=
  ⟨rank_perm_of_perm g₁ g₂ h, rank_sorted g₁, rank_sorted g₂⟩

/-- C7 witness: the amended theorem applied to the two enumerations of the
tied author map. -/
theorem C7_amended_witness :
    tieGroups ~ tieGroupsRev ∧
    (rank tieGroups ~ rank tieGroupsRev ∧
      (rank tieGroups).Pairwise (fun a b => b.1 ≤ a.1) ∧
      (rank tieGroupsRev).Pairwise (fun a b => b.1 ≤ a.1)) :=
  ⟨by decide, C7_amended tieGroups tieGroupsRev (by decide)⟩

/-- C8: author identity is structural over (name, mail): any two commits of
the input that agree on both fields end up in the same group of the author
map, whatever their hashes. -/
theorem C8_structural_author_key (commits : List Commit) (c₁ c₂ : Commit)
    (h₁ : c₁ ∈ commits) (h₂ : c₂ ∈ commits)
    (hn : c₁.author = c₂.author) (hm : c₁.author_mail = c₂.author_mail) :
    ∃ e ∈ groupByAuthor commits, c₁ ∈ e.2 ∧ c₂ ∈ e.2 := by
  obtain ⟨l₁, hf₁, hc₁⟩ := mem_groupByAuthor commits c₁ h₁
  obtain ⟨l₂, hf₂, hc₂⟩ := mem_groupByAuthor commits c₂ h₂
  have hkey : Author.new c₁.author c₁.author_mail
      = Author.new c₂.author c₂.author_mail := by
    rw [hn, hm]
  rw [hkey] at hf₁
  have hl : l₁ = l₂ := Option.some.inj (hf₁.symm.trans hf₂)
  subst hl
  exact ⟨(Author.new c₂.author c₂.author_mail, l₁),
    groupFind_mem _ _ _ hf₂, hc₁, hc₂⟩

/-- C8 witness: the theorem applied to two commits with distinct hashes and
the same author. -/
theorem C8_witness :
    (⟨"h1", "N", "E", 1⟩ : Commit) ∈ sameAuthorCommits ∧
    (⟨"h2", "N", "E", 2⟩ : Commit) ∈ sameAuthorCommits ∧
    (⟨"h1", "N", "E", 1⟩ : Commit).author = (⟨"h2", "N", "E", 2⟩ : Commit).author ∧
    (⟨"h1", "N", "E", 1⟩ : Commit).author_mail
      = (⟨"h2", "N", "E", 2⟩ : Commit).author_mail ∧
    ∃ e ∈ groupByAuthor sameAuthorCommits,
      (⟨"h1", "N", "E", 1⟩ : Commit) ∈ e.2 ∧ (⟨"h2", "N", "E", 2⟩ : Commit) ∈ e.2 :=
  ⟨by decide, by decide, rfl, rfl,
    C8_structural_author_key sameAuthorCommits _ _ (by decide) (by decide) rfl rfl⟩

/-- C9: the round-trip scenario: from the three-record stream (two records
for `abc123` by Alice, one for `def456` by Bob), the built table holds Alice's
commit with two lines and Bob's with one, and the aggregation ranks Alice
(2 lines, 1 commit) before Bob (1 line, 1 commit). -/
theorem C9_round_trip :
    buildCommits roundTripStream = Except.ok roundTripTable ∧
    aggregate (tableCommits roundTripTable)
      = [(2, Author.new "Alice" "alice@x.com",
          [⟨"abc123", "Alice", "alice@x.com", 2⟩]),
         (1, Author.new "Bob" "bob@x.com",
          [⟨"def456", "Bob", "bob@x.com", 1⟩])] := by
  constructor
  · rfl
  · rw [aggregate, rank, show (groupByAuthor (tableCommits roundTripTable)).map summarize
        = [(2, Author.new "Alice" "alice@x.com", [⟨"abc123", "Alice", "alice@x.com", 2⟩]),
           (1, Author.new "Bob" "bob@x.com", [⟨"def456", "Bob", "bob@x.com", 1⟩])]
        from by decide]
    exact mergeSort_of_sorted (by simp [pairwise_cons, descByLines])

/-- C10: on every stream the index accepts, the table is keyed consistently:
each stored commit's `hash` equals the identifier it is indexed under, and
the hashes of the produced commits are pairwise distinct (at most one commit
per identifier). -/
theorem C10_distinct_hashes (lines : List Line) (m' : Table)
    (h : buildCommits lines = Except.ok m') :
    ((tableCommits m').map Commit.hash).Nodup ∧ ∀ p ∈ m', p.2.hash = p.1 := by
  obtain ⟨hnd, hhm⟩ := buildFrom_invariant lines [] m' (by simp [keysC])
    (fun p hp => absurd hp (List.not_mem_nil p)) h
  refine ⟨?_, hhm⟩
  have heq : (tableCommits m').map Commit.hash = keysC m' := by
    rw [tableCommits, keysC, List.map_map]
    exact List.map_congr_left (fun p hp => hhm p hp)
  rw [heq]
  exact hnd

/-- C10 witness: the theorem applied to the round-trip stream and its table. -/
theorem C10_witness :
    buildCommits roundTripStream = Except.ok roundTripTable ∧
    ((tableCommits roundTripTable).map Commit.hash).Nodup ∧
    ∀ p ∈ roundTripTable, p.2.hash = p.1 :=
  ⟨rfl, C10_distinct_hashes roundTripStream roundTripTable rfl⟩
